import Mathlib

/-
Verification of the distributed coordination layer (`lib/zookeeper.py`).

The Python module is embedded shallowly:

* machine state that the methods read and mutate (`_connected`, `_lock`,
  `conn_epoch`, `_lock_epoch`, `_zk_lock`, the shared-cache `_entries` dict
  and `_incoming_entries` deque) becomes explicit state records / lists;
* outcomes of calls into the external kazoo client (`set`, `create`, `get`,
  `delete`, `Lock.release`, connection waits) become oracle parameters, one
  constructor per exception branch the Python code distinguishes;
* Python `dict` becomes an insertion-ordered association list
  (`setdefault`, `pop`, key-set and iteration in insertion order);
* `float` timestamps become `Int` (only ordering and subtraction are used);
* raising becomes `Except ZkError`.
-/

namespace ZkSpec

/-- The error taxonomy of `lib/zookeeper.py`: `ZkNoConnection` and
`ZkNoNodeError`.  (`ZkRetryLimit` is produced only by `Zookeeper.retry` and
is modelled by `RetryResult.retryLimit` below.) -/
inductive ZkError where
  | noConn
  | noNode
deriving DecidableEq, Repr

/-- The client state read and written by `Zookeeper.release_lock` and
`Zookeeper.have_lock` (zookeeper.py):

* `connected` — the `_connected` event;
* `lockSet` — the `_lock` event (the local "acquired" bit);
* `connEpoch` — `conn_epoch`;
* `lockEpoch` — `_lock_epoch` (epoch recorded at acquisition);
* `zkLockExists` — whether `_zk_lock` is not `None`;
* `zkLockAcquired` — the kazoo lock's `is_acquired` field;
* `releaseAttempts` — how many times `_zk_lock.release()` was invoked
  (instrumentation of the store-side call). -/
structure ZkState where
  connected : Bool
  lockSet : Bool
  connEpoch : Nat
  lockEpoch : Nat
  zkLockExists : Bool
  zkLockAcquired : Bool
  releaseAttempts : Nat
deriving DecidableEq, Repr

/-- Outcome of the store-side `self._zk_lock.release()` call: success, or one
of the three kazoo exceptions the `except` clause in `release_lock` names. -/
inductive ReleaseRes where
  | ok
  | noNodeError
  | connectionLoss
  | sessionExpired
deriving DecidableEq, Repr

/-- `self._zk_lock.release()` — the store-side release attempt.  Counts the
attempt and reports the kazoo error, if any, to the caller. -/
def zkLockRelease (res : ReleaseRes) (s : ZkState) : ZkState × Option ReleaseRes :=
  let s1 := { s with releaseAttempts := s.releaseAttempts + 1 }
  match res with
  | .ok => (s1, none)
  | e => (s1, some e)

/-- `Zookeeper.release_lock` (zookeeper.py:372-383): clear the `_lock` event,
return early if `_zk_lock is None`, attempt the store-side release only when
connected — swallowing `NoNodeError`, `ConnectionLoss` and
`SessionExpiredError` — then force the kazoo lock's `is_acquired` to `False`. -/
def release_lock (res : ReleaseRes) (s : ZkState) : Except ZkError ZkState :=
  let s1 : ZkState := { s with lockSet := false }
  if s1.zkLockExists = false then .ok s1
  else
    let s2 :=
      if s1.connected then
        match zkLockRelease res s1 with
        | (sr, none) => sr
        | (sr, some _) => sr
      else s1
    .ok { s2 with zkLockAcquired := false }

/-- `Zookeeper.have_lock` (zookeeper.py:385-393): return `True` exactly when
`is_connected() and _lock_epoch == conn_epoch and _lock.is_set()`; otherwise
call `release_lock` and return `False`. -/
def have_lock (res : ReleaseRes) (s : ZkState) : Except ZkError (Bool × ZkState) :=
  if s.connected && s.lockEpoch == s.connEpoch && s.lockSet then
    .ok (true, s)
  else
    match release_lock res s with
    | .ok s1 => .ok (false, s1)
    | .error e => .error e

/-- `release_lock` always succeeds and fully characterises the result state:
the acquired bit is cleared, the epochs are untouched, the store-side release
is attempted exactly when a lock object exists and the client is connected,
and the kazoo `is_acquired` field is forced to `false` whenever a lock object
exists. -/
theorem release_lock_total (res : ReleaseRes) (s : ZkState) :
    ∃ s1, release_lock res s = .ok s1 ∧
      s1.lockSet = false ∧
      s1.connected = s.connected ∧
      s1.connEpoch = s.connEpoch ∧
      s1.lockEpoch = s.lockEpoch ∧
      s1.zkLockExists = s.zkLockExists ∧
      s1.releaseAttempts =
        s.releaseAttempts + (if s.zkLockExists && s.connected then 1 else 0) ∧
      (s.zkLockExists = true → s1.zkLockAcquired = false) := by
  unfold release_lock zkLockRelease
  by_cases he : s.zkLockExists
  · by_cases hc : s.connected
    · cases res <;> simp [he, hc]
    · simp [he, Bool.eq_false_iff.mpr hc]
  · simp [Bool.eq_false_iff.mpr he]

/-- C1: `have_lock` returns `true` iff the client is connected, the acquired
bit is set, and the epoch recorded at acquisition equals the current
connection epoch; whenever that predicate is false, `have_lock` resets the
acquired bit (runs the local side of release) and returns `false`. -/
theorem have_lock_spec (res : ReleaseRes) (s : ZkState) :
    (have_lock res s = .ok (true, s) ↔
      (s.connected = true ∧ s.lockEpoch = s.connEpoch ∧ s.lockSet = true)) ∧
    (¬(s.connected = true ∧ s.lockEpoch = s.connEpoch ∧ s.lockSet = true) →
      ∃ s1, have_lock res s = .ok (false, s1) ∧ s1.lockSet = false) := by
  obtain ⟨s1, hrel, hset, -⟩ := release_lock_total res s
  by_cases hp : s.connected = true ∧ s.lockEpoch = s.connEpoch ∧ s.lockSet = true
  · constructor
    · exact iff_of_true (by simp [have_lock, hp.1, hp.2.1, hp.2.2]) hp
    · exact fun h => absurd hp h
  · have hcond : (s.connected && s.lockEpoch == s.connEpoch && s.lockSet) = false := by
      by_contra h
      rw [Bool.not_eq_false] at h
      simp only [Bool.and_eq_true, beq_iff_eq] at h
      exact hp ⟨h.1.1, h.1.2, h.2⟩
    have hrun : have_lock res s = .ok (false, s1) := by
      simp [have_lock, hcond, hrel]
    constructor
    · rw [hrun]
      exact iff_of_false (by simp) hp
    · exact fun _ => ⟨s1, hrun, hset⟩

/-- C1 witness: a disconnected client with the acquired bit set does not hold
the lock, and `have_lock` clears the bit. -/
theorem have_lock_spec_witness :
    ¬((false : Bool) = true ∧ (3 : Nat) = 3 ∧ (true : Bool) = true) ∧
    ∃ s1, have_lock ReleaseRes.ok
        ⟨false, true, 3, 3, true, true, 0⟩ = .ok (false, s1) ∧ s1.lockSet = false :=
  ⟨by decide, (have_lock_spec ReleaseRes.ok ⟨false, true, 3, 3, true, true, 0⟩).2 (by decide)⟩

/-- C8: `release_lock` never raises: for every client state and every
store-side outcome (including `NoNodeError`, `ConnectionLoss` and
`SessionExpiredError`) it returns normally; it clears the acquired bit, and
it attempts the store-side release exactly when a lock object exists and the
client is connected (so never when disconnected or without a lock object). -/
theorem release_lock_spec (res : ReleaseRes) (s : ZkState) :
    ∃ s1, release_lock res s = .ok s1 ∧
      s1.lockSet = false ∧
      s1.releaseAttempts =
        s.releaseAttempts + (if s.zkLockExists && s.connected then 1 else 0) := by
  obtain ⟨s1, hrel, hset, -, -, -, -, hatt, -⟩ := release_lock_total res s
  exact ⟨s1, hrel, hset, hatt⟩

/-- The three Kazoo connection states observed by the listener
(`KazooState.CONNECTED / SUSPENDED / LOST`). -/
inductive KazooState where
  | connected
  | suspended
  | lost
deriving DecidableEq, Repr

/-- The state touched by `Zookeeper._state_listener`: the `conn_epoch`
counter and the `_state_events` queue. -/
structure ListenerState where
  connEpoch : Nat
  stateEvents : List KazooState
deriving DecidableEq, Repr

/-- `Zookeeper._state_listener` (zookeeper.py:165-173): increment
`conn_epoch`, enqueue the new state, and return `False` (so kazoo keeps the
listener registered). -/
def state_listener (newState : KazooState) (s : ListenerState) :
    ListenerState × Bool :=
  ({ connEpoch := s.connEpoch + 1,
     stateEvents := s.stateEvents ++ [newState] }, false)

/-- Deliver a sequence of state-change notifications to the listener, in
order. -/
def runListener (s : ListenerState) (notes : List KazooState) : ListenerState :=
  notes.foldl (fun st e => (state_listener e st).1) s

/-- A fresh client: `conn_epoch = 0` and an empty event queue
(zookeeper.py:112-113). -/
def freshListener : ListenerState := { connEpoch := 0, stateEvents := [] }

theorem runListener_epoch (notes : List KazooState) :
    ∀ s : ListenerState, (runListener s notes).connEpoch = s.connEpoch + notes.length := by
  induction notes with
  | nil => intro s; simp [runListener]
  | cons e rest ih =>
    intro s
    have : runListener s (e :: rest) = runListener ((state_listener e s).1) rest := rfl
    rw [this, ih]
    simp [state_listener]
    omega

/-- C2: the connection epoch is incremented exactly once per delivered
state-change notification: from a fresh client the epoch after `N`
notifications equals `N`, in general it grows by exactly the number of
notifications delivered, and it never decreases. -/
theorem conn_epoch_spec (notes : List KazooState) :
    (runListener freshListener notes).connEpoch = notes.length ∧
    (∀ s : ListenerState,
      (runListener s notes).connEpoch = s.connEpoch + notes.length) ∧
    (∀ (s : ListenerState) (more : List KazooState),
      (runListener s notes).connEpoch ≤ (runListener s (notes ++ more)).connEpoch) := by
  refine ⟨by simp [runListener_epoch, freshListener], runListener_epoch notes, ?_⟩
  intro s more
  have h1 := runListener_epoch notes s
  have h2 := runListener_epoch (notes ++ more) s
  rw [h1, h2, List.length_append]
  omega

/-- The observable state touched by `Zookeeper._state_connected`: the
`_connected` event and the number of calls made to the user-supplied
`_on_connect` hook. -/
structure ConnState where
  connected : Bool
  onConnectCalls : Nat
deriving DecidableEq, Repr

/-- `Zookeeper._state_connected` (zookeeper.py:208-223).  `ensureOk` is the
outcome of `ensure_path(self.prefix, abs=True)` (`false` = it raised
`ZkNoConnection`); `partyOk` records, in iteration order, the outcomes of the
registered parties' `autojoin()` calls (`false` = `ZkNoConnection`); `hasHook`
says whether an `_on_connect` hook was supplied.  Any `ZkNoConnection` from
the `try` block returns early, leaving the state untouched. -/
def state_connected (ensureOk : Bool) (partyOk : List Bool) (hasHook : Bool)
    (s : ConnState) : ConnState :=
  if ensureOk = false then s
  else if partyOk.all (fun b => b) = false then s
  else
    let s1 : ConnState := { s with connected := true }
    if hasHook then { s1 with onConnectCalls := s1.onConnectCalls + 1 } else s1

/-- C9: if ensuring the service prefix path or any registered party's autojoin
raises `ZkNoConnection` during the CONNECTED dispatch, the handler returns
early: the `connected` condition is not set and the on-connect hook is not
invoked (the state is unchanged). -/
theorem state_connected_spec (ensureOk : Bool) (partyOk : List Bool)
    (hasHook : Bool) (s : ConnState) :
    (ensureOk = false ∨ false ∈ partyOk) →
      state_connected ensureOk partyOk hasHook s = s := by
  intro h
  rcases h with h | h
  · simp [state_connected, h]
  · have hall : partyOk.all (fun b => b) = false := by
      by_contra hx
      have ht : partyOk.all (fun b => b) = true := by
        cases hb : partyOk.all (fun b => b)
        · exact absurd hb hx
        · rfl
      have := List.all_eq_true.mp ht false h
      simp at this
    unfold state_connected
    by_cases he : ensureOk = false
    · simp [he]
    · simp [he, hall]

/-- C9 witness: a failing autojoin (second party) leaves a disconnected state
unchanged even though `ensure_path` succeeded. -/
theorem state_connected_spec_witness :
    ((true : Bool) = false ∨ false ∈ [true, false]) ∧
    state_connected true [true, false] true ⟨false, 0⟩ = ⟨false, 0⟩ :=
  ⟨by decide, state_connected_spec true [true, false] true ⟨false, 0⟩ (by decide)⟩

/-- Python `dict.setdefault(k, v)` on the insertion-ordered `_entries` dict:
if `k` is already a key, leave the dict unchanged; otherwise append `(k, v)`. -/
def setdefault (m : List (String × Int)) (k : String) (v : Int) :
    List (String × Int) :=
  if (m.map Prod.fst).contains k then m else m ++ [(k, v)]

/-- Python `dict.pop(k, None)` on `_entries`: remove the key `k` if present. -/
def popEntry (m : List (String × Int)) (k : String) : List (String × Int) :=
  m.filter (fun p => p.1 != k)

/-- zookeeper.py:569-572: drain `_incoming_entries`, inserting each
`(name, ts)` into `_entries` via `setdefault` (existing entries unchanged). -/
def drainIncoming (m inc : List (String × Int)) : List (String × Int) :=
  inc.foldl (fun acc p => setdefault acc p.1 p.2) m

theorem setdefault_keys (m : List (String × Int)) (k n : String) (v : Int) :
    n ∈ (setdefault m k v).map Prod.fst ↔ n ∈ m.map Prod.fst ∨ n = k := by
  unfold setdefault
  by_cases h : ((m.map Prod.fst).contains k) = true
  · have hk : k ∈ m.map Prod.fst := by simpa using h
    rw [if_pos h]
    constructor
    · exact Or.inl
    · rintro (hn | rfl)
      · exact hn
      · exact hk
  · rw [if_neg h]
    simp

theorem setdefault_of_mem (m : List (String × Int)) (k : String) (v : Int)
    (h : k ∈ m.map Prod.fst) : setdefault m k v = m := by
  unfold setdefault
  rw [if_pos (by simpa using h)]

theorem lookup_append_of_mem (m l : List (String × Int)) (n : String)
    (h : n ∈ m.map Prod.fst) : List.lookup n (m ++ l) = List.lookup n m := by
  induction m with
  | nil => simp at h
  | cons p rest ih =>
    rcases p with ⟨a, b⟩
    by_cases hp : n = a
    · subst hp
      simp [List.lookup]
    · have hr : n ∈ rest.map Prod.fst := by
        simpa [hp] using h
      simp [List.lookup, hp, ih hr]

theorem lookup_append_self (m : List (String × Int)) (k : String) (v : Int) :
    k ∉ m.map Prod.fst → List.lookup k (m ++ [(k, v)]) = some v := by
  induction m with
  | nil =>
    intro _
    simp [List.lookup]
  | cons p rest ih =>
    intro h
    rcases p with ⟨a, b⟩
    have hka : ¬(k = a) := fun hh => h (by simp [hh])
    have hkr : k ∉ rest.map Prod.fst := fun hm => h (by simp [hm])
    have hbeq : (k == a) = false := by simp [hka]
    simp [List.lookup, hbeq, ih hkr]

theorem lookup_setdefault_self (m : List (String × Int)) (k : String) (v : Int)
    (h : k ∉ m.map Prod.fst) : List.lookup k (setdefault m k v) = some v := by
  unfold setdefault
  rw [if_neg (by simpa using h)]
  exact lookup_append_self m k v h

theorem lookup_setdefault_of_mem (m : List (String × Int)) (k n : String)
    (v : Int) (h : n ∈ m.map Prod.fst) :
    List.lookup n (setdefault m k v) = List.lookup n m := by
  unfold setdefault
  by_cases hc : ((m.map Prod.fst).contains k) = true
  · rw [if_pos hc]
  · rw [if_neg hc]
    exact lookup_append_of_mem m [(k, v)] n h

theorem popEntry_keys (m : List (String × Int)) (k n : String) :
    n ∈ (popEntry m k).map Prod.fst ↔ n ∈ m.map Prod.fst ∧ n ≠ k := by
  unfold popEntry
  constructor
  · intro h
    rcases List.mem_map.mp h with ⟨p, hp, rfl⟩
    have hf := List.mem_filter.mp hp
    refine ⟨List.mem_map.mpr ⟨p, hf.1, rfl⟩, ?_⟩
    simpa using hf.2
  · rintro ⟨h, hne⟩
    rcases List.mem_map.mp h with ⟨p, hp, rfl⟩
    exact List.mem_map.mpr ⟨p, List.mem_filter.mpr ⟨hp, by simpa using hne⟩, rfl⟩

/-- Outcome of the kazoo `set(full_path, value)` call inside
`ZkSharedCache.store`: success, `NoNodeError`, or a connection error
(`ConnectionLoss` / `SessionExpiredError`). -/
inductive SetRes where
  | ok
  | noNodeError
  | connLoss
deriving DecidableEq, Repr

/-- Outcome of the kazoo `create(full_path, value, makepath=True)` call inside
`ZkSharedCache.store`: success, `NodeExistsError`, or a connection error. -/
inductive CreateRes where
  | ok
  | nodeExists
  | connLoss
deriving DecidableEq, Repr

/-- `ZkSharedCache.store` (zookeeper.py:526-557): require a connection, first
try `set` (appending `(name, now)` to `_incoming_entries` on success), on
`NoNodeError` fall back to `create` (appending on success), and on
`NodeExistsError` during create return normally without appending.  Returns
the updated `_incoming_entries` FIFO. -/
def cacheStore (conn : Bool) (sres : SetRes) (cres : CreateRes)
    (name : String) (now : Int) (inc : List (String × Int)) :
    Except ZkError (List (String × Int)) :=
  if conn = false then .error .noConn
  else
    match sres with
    | .ok => .ok (inc ++ [(name, now)])
    | .connLoss => .error .noConn
    | .noNodeError =>
      match cres with
      | .ok => .ok (inc ++ [(name, now)])
      | .nodeExists => .ok inc
      | .connLoss => .error .noConn

/-- C5: on a connected cache, when `set` fails with `NoNode` and `create`
fails with `NodeExists`, `store` returns normally and pushes nothing onto the
writer FIFO; on the `set`-success and `create`-success paths it pushes
`(name, now)`; and the `NodeExists` path is the only normal return that
leaves the FIFO unchanged. -/
theorem cacheStore_spec (sres : SetRes) (cres : CreateRes) (name : String)
    (now : Int) (inc : List (String × Int)) :
    (sres = .noNodeError → cres = .nodeExists →
      cacheStore true sres cres name now inc = .ok inc) ∧
    (sres = .ok →
      cacheStore true sres cres name now inc = .ok (inc ++ [(name, now)])) ∧
    (sres = .noNodeError → cres = .ok →
      cacheStore true sres cres name now inc = .ok (inc ++ [(name, now)])) ∧
    (∀ inc1, cacheStore true sres cres name now inc = .ok inc1 → inc1 = inc →
      sres = .noNodeError ∧ cres = .nodeExists) := by
  refine ⟨?_, ?_, ?_, ?_⟩
  · rintro rfl rfl
    rfl
  · rintro rfl
    rfl
  · rintro rfl rfl
    rfl
  · intro inc1 hok hsame
    cases sres <;> cases cres <;>
      simp only [cacheStore, if_neg (by simp : ¬(true = false))] at hok <;>
      first
        | exact ⟨rfl, rfl⟩
        | (exact absurd (hsame ▸ (Except.ok.injEq _ _).mp hok)
            (by simp))
        | exact Except.noConfusion hok

/-- C5 witness: concrete run of the three normal-return paths on an initially
empty FIFO. -/
theorem cacheStore_spec_witness :
    cacheStore true SetRes.noNodeError CreateRes.nodeExists "dup" 7 [] = .ok [] ∧
    cacheStore true SetRes.ok CreateRes.nodeExists "dup" 7 [] = .ok [("dup", 7)] ∧
    cacheStore true SetRes.noNodeError CreateRes.ok "dup" 7 [] = .ok [("dup", 7)] :=
  ⟨(cacheStore_spec SetRes.noNodeError CreateRes.nodeExists "dup" 7 []).1 rfl rfl,
   (cacheStore_spec SetRes.ok CreateRes.nodeExists "dup" 7 []).2.1 rfl,
   (cacheStore_spec SetRes.noNodeError CreateRes.ok "dup" 7 []).2.2.1 rfl rfl⟩

/-- Outcome of the kazoo `get(full_path)` call inside `ZkSharedCache._get`:
the payload bytes, `NoNodeError`, or a connection error. -/
inductive GetRes where
  | ok (data : List Nat)
  | noNodeError
  | connLoss
deriving DecidableEq, Repr

/-- `ZkSharedCache._get` (zookeeper.py:583-603): on a connection error raise
`ZkNoConnection`; on `NoNodeError` pop the name from `_entries` and raise
`ZkNoNodeError`; on success record the name via `setdefault(name, now)` and
return the data.  Returns the updated `_entries` next to the outcome. -/
def cacheGet (fetch : String → GetRes) (now : Int) (m : List (String × Int))
    (name : String) : List (String × Int) × Except ZkError (List Nat) :=
  match fetch name with
  | .connLoss => (m, .error .noConn)
  | .noNodeError => (popEntry m name, .error .noNode)
  | .ok d => (setdefault m name now, .ok d)

/-- C10: when the fetch hits `NoNode`, `_get` removes the name from the
timestamp map and raises `ZkNoNodeError` (the name is no longer a key of the
map); on a successful fetch the name is recorded with the current time only
if not already present (an existing timestamp survives unchanged). -/
theorem cacheGet_spec (fetch : String → GetRes) (now : Int)
    (m : List (String × Int)) (name : String) :
    (fetch name = .noNodeError →
      cacheGet fetch now m name = (popEntry m name, .error .noNode) ∧
      name ∉ (popEntry m name).map Prod.fst) ∧
    (∀ d, fetch name = .ok d →
      cacheGet fetch now m name = (setdefault m name now, .ok d) ∧
      (name ∈ m.map Prod.fst → setdefault m name now = m) ∧
      (name ∉ m.map Prod.fst →
        List.lookup name (setdefault m name now) = some now)) := by
  constructor
  · intro h
    refine ⟨by simp [cacheGet, h], ?_⟩
    intro hmem
    exact ((popEntry_keys m name name).mp hmem).2 rfl
  · intro d h
    exact ⟨by simp [cacheGet, h],
      fun hmem => setdefault_of_mem m name now hmem,
      fun hnew => lookup_setdefault_self m name now hnew⟩

/-- C10 witness: a `NoNode` fetch drops the stale key `"a"`; a successful
fetch re-records a missing key with the current time and leaves a present
key's timestamp alone. -/
theorem cacheGet_spec_witness :
    (cacheGet (fun _ => GetRes.noNodeError) 9 [("a", 1)] "a" =
        ([], .error .noNode) ∧
      "a" ∉ ([] : List (String × Int)).map Prod.fst) ∧
    (cacheGet (fun _ => GetRes.ok [5]) 9 [("a", 1)] "b" =
        ([("a", 1), ("b", 9)], .ok [5]) ∧
      List.lookup "b" [("a", (1 : Int)), ("b", 9)] = some 9) := by
  constructor
  · have h := (cacheGet_spec (fun _ => GetRes.noNodeError) 9 [("a", 1)] "a").1 rfl
    constructor
    · rw [h.1]
      rfl
    · simp
  · have h := (cacheGet_spec (fun _ => GetRes.ok [5]) 9 [("a", 1)] "b").2 [5] rfl
    constructor
    · rw [h.1]
      rfl
    · have := h.2.2 (by decide)
      simpa [setdefault] using this

/-- `ZkSharedCache._handle_entries` (zookeeper.py:623-644): fetch each name
via `_get`, breaking the batch on `ZkNoConnection`, skipping the name on
`ZkNoNodeError`, and accumulating the payloads otherwise.  Returns the
updated `_entries` and the batch handed to the handler. -/
def handle_entries (fetch : String → GetRes) (now : Int) :
    List (String × Int) → List String → List (String × Int) × List (List Nat)
  | m, [] => (m, [])
  | m, n :: rest =>
    match cacheGet fetch now m n with
    | (m1, Except.ok d) =>
      let r := handle_entries fetch now m1 rest
      (r.1, d :: r.2)
    | (m1, Except.error ZkError.noConn) => (m1, [])
    | (m1, Except.error ZkError.noNode) => handle_entries fetch now m1 rest

/-- `ZkSharedCache.process` (zookeeper.py:559-581): require a connection,
drain the writer FIFO into `_entries` via `setdefault`, drop every tracked
name that is not among the store's children, then fetch every child not yet
tracked and hand the batch to the handler.  `children` is the result of
`_list_entries` (the store's child set at listing time; also `[]` when the
cache path does not exist yet). -/
def cacheProcess (conn : Bool) (children : List String)
    (fetch : String → GetRes) (now : Int) (m inc : List (String × Int)) :
    Except ZkError (List (String × Int) × List (List Nat)) :=
  if conn = false then .error .noConn
  else
    .ok (handle_entries fetch now
      ((drainIncoming m inc).filter (fun p => children.contains p.1))
      (children.filter
        (fun x => !(((drainIncoming m inc).map Prod.fst).contains x))))

theorem handle_entries_keys (fetch : String → GetRes) (now : Int)
    (names : List String) :
    ∀ m, (∀ n ∈ names, ∃ d, fetch n = GetRes.ok d) →
      ∀ k, k ∈ ((handle_entries fetch now m names).1.map Prod.fst) ↔
        (k ∈ m.map Prod.fst ∨ k ∈ names) := by
  induction names with
  | nil =>
    intro m _ k
    simp [handle_entries]
  | cons n rest ih =>
    intro m hok k
    obtain ⟨d, hd⟩ := hok n (by simp)
    have hrest : ∀ x ∈ rest, ∃ d, fetch x = GetRes.ok d :=
      fun x hx => hok x (by simp [hx])
    have hstep : (handle_entries fetch now m (n :: rest)).1 =
        (handle_entries fetch now (setdefault m n now) rest).1 := by
      simp [handle_entries, cacheGet, hd]
    rw [hstep, ih (setdefault m n now) hrest k, setdefault_keys]
    simp only [List.mem_cons]
    tauto

theorem filter_keys (m1 : List (String × Int)) (children : List String)
    (k : String) :
    k ∈ (m1.filter (fun p => children.contains p.1)).map Prod.fst ↔
      k ∈ m1.map Prod.fst ∧ k ∈ children := by
  constructor
  · intro h
    rcases List.mem_map.mp h with ⟨p, hp, rfl⟩
    have hf := List.mem_filter.mp hp
    exact ⟨List.mem_map.mpr ⟨p, hf.1, rfl⟩, by simpa using hf.2⟩
  · rintro ⟨h, hc⟩
    rcases List.mem_map.mp h with ⟨p, hp, rfl⟩
    exact List.mem_map.mpr ⟨p, List.mem_filter.mpr ⟨hp, by simpa using hc⟩, rfl⟩

/-- C3: on a connected cache whose store children equal `C` at listing time,
if every per-entry fetch succeeds then after `process()` the key-set of the
timestamp map equals `C`: names previously tracked but not in `C` are gone,
and names in `C` not previously tracked are inserted ("previously" meaning
after the FIFO drain, as in the source). -/
theorem cacheProcess_spec (children : List String) (fetch : String → GetRes)
    (now : Int) (m inc : List (String × Int))
    (hok : ∀ n ∈ children, ∃ d, fetch n = GetRes.ok d) :
    ∃ m3 data, cacheProcess true children fetch now m inc = .ok (m3, data) ∧
      (∀ k, k ∈ m3.map Prod.fst ↔ k ∈ children) ∧
      (∀ k, k ∈ (drainIncoming m inc).map Prod.fst → k ∉ children →
        k ∉ m3.map Prod.fst) ∧
      (∀ k, k ∈ children → k ∉ (drainIncoming m inc).map Prod.fst →
        k ∈ m3.map Prod.fst) := by
  set m1 := drainIncoming m inc with hm1
  set m2 := m1.filter (fun p => children.contains p.1) with hm2
  set fresh := children.filter (fun n => !((m1.map Prod.fst).contains n))
    with hfresh
  have hfresh_mem : ∀ k, k ∈ fresh ↔ k ∈ children ∧ k ∉ m1.map Prod.fst := by
    intro k
    rw [hfresh]
    simp [List.mem_filter]
  have hfr_ok : ∀ n ∈ fresh, ∃ d, fetch n = GetRes.ok d :=
    fun n hn => hok n ((hfresh_mem n).mp hn).1
  have hkeys := handle_entries_keys fetch now fresh m2 hfr_ok
  have hmain : ∀ k,
      k ∈ ((handle_entries fetch now m2 fresh).1.map Prod.fst) ↔ k ∈ children := by
    intro k
    rw [hkeys k, filter_keys, hfresh_mem k]
    by_cases hk : k ∈ m1.map Prod.fst <;> tauto
  refine ⟨(handle_entries fetch now m2 fresh).1,
    (handle_entries fetch now m2 fresh).2, ?_, hmain, ?_, ?_⟩
  · rfl
  · intro k _ hkc
    rw [hmain k]
    exact hkc
  · intro k hkc _
    rw [hmain k]
    exact hkc

/-- C3 witness: a cache tracking `"gone"` (via the FIFO) synchronises to a
store whose children are `{"p01", "p02"}`. -/
theorem cacheProcess_spec_witness :
    cacheProcess true ["p01", "p02"] (fun _ => GetRes.ok [1]) 5 []
        [("gone", 2)] =
      .ok ([("p01", 5), ("p02", 5)], [[1], [1]]) ∧
    (∃ m3 data,
      cacheProcess true ["p01", "p02"] (fun _ => GetRes.ok [1]) 5 []
          [("gone", 2)] = .ok (m3, data) ∧
      (∀ k, k ∈ m3.map Prod.fst ↔ k ∈ ["p01", "p02"]) ∧
      (∀ k, k ∈ (drainIncoming [] [("gone", 2)]).map Prod.fst →
        k ∉ ["p01", "p02"] → k ∉ m3.map Prod.fst) ∧
      (∀ k, k ∈ ["p01", "p02"] →
        k ∉ (drainIncoming [] [("gone", 2)]).map Prod.fst →
        k ∈ m3.map Prod.fst)) :=
  ⟨rfl,
   cacheProcess_spec ["p01", "p02"] (fun _ => GetRes.ok [1]) 5 [] [("gone", 2)]
     (fun _ _ => ⟨[1], rfl⟩)⟩

/-- The kazoo `delete(full_path)` call inside `ZkSharedCache.expire`, with
the error translation done there (zookeeper.py:664-670): a connection loss
becomes `ZkNoConnection`, deleting an absent node becomes `ZkNoNodeError`,
and a successful delete removes the name from the store's child set. -/
def storeDelete (connLoss : String → Bool) (store : List String)
    (name : String) : Except ZkError (List String) :=
  if connLoss name then .error .noConn
  else if store.contains name then .ok (store.filter (fun k => k != name))
  else .error .noNode

/-- The sweep loop of `ZkSharedCache.expire` (zookeeper.py:658-670): for each
`(name, ts)` in `_entries` with `now - ts > ttl`, delete the store node,
propagating the first error. -/
def expireLoop (connLoss : String → Bool) (now ttl : Int) :
    List (String × Int) → List String → Except ZkError (List String)
  | [], store => .ok store
  | (name, ts) :: rest, store =>
    if now - ts > ttl then
      match storeDelete connLoss store name with
      | .ok store1 => expireLoop connLoss now ttl rest store1
      | .error e => .error e
    else expireLoop connLoss now ttl rest store

/-- `ZkSharedCache.expire` (zookeeper.py:646-672): require a connection, then
sweep `_entries`.  (`expire` does not modify `_entries`; stale names leave
the map at the next `process()`.) -/
def cacheExpire (conn : Bool) (connLoss : String → Bool) (now ttl : Int)
    (es : List (String × Int)) (store : List String) :
    Except ZkError (List String) :=
  if conn = false then .error .noConn
  else expireLoop connLoss now ttl es store

theorem storeDelete_ok (connLoss : String → Bool) (store : List String)
    (name : String) (store1 : List String)
    (h : storeDelete connLoss store name = .ok store1) :
    connLoss name = false ∧ name ∈ store ∧
      store1 = store.filter (fun k => k != name) := by
  unfold storeDelete at h
  by_cases hc : connLoss name = true
  · rw [if_pos hc] at h
    exact absurd h (by simp)
  · rw [if_neg hc] at h
    by_cases hm : store.contains name = true
    · rw [if_pos hm] at h
      exact ⟨by simpa using hc, by simpa using hm,
        ((Except.ok.injEq _ _).mp h).symm⟩
    · rw [if_neg hm] at h
      exact absurd h (by simp)

theorem expireLoop_subset (connLoss : String → Bool) (now ttl : Int)
    (es : List (String × Int)) :
    ∀ store store1, expireLoop connLoss now ttl es store = .ok store1 →
      store1 ⊆ store := by
  induction es with
  | nil =>
    intro store store1 h
    simp only [expireLoop] at h
    rw [← (Except.ok.injEq _ _).mp h]
    exact fun x hx => hx
  | cons p rest ih =>
    rcases p with ⟨name, ts⟩
    intro store store1 h
    simp only [expireLoop] at h
    by_cases hst : now - ts > ttl
    · rw [if_pos hst] at h
      cases hdel : storeDelete connLoss store name with
      | ok store2 =>
        rw [hdel] at h
        have hsub := ih store2 store1 h
        have hrm := (storeDelete_ok connLoss store name store2 hdel).2.2
        intro x hx
        have := hsub hx
        rw [hrm] at this
        exact List.mem_of_mem_filter this
      | error e =>
        rw [hdel] at h
        exact absurd h (by simp)
    · rw [if_neg hst] at h
      exact ih store store1 h

theorem expireLoop_stale (connLoss : String → Bool) (now ttl : Int)
    (es : List (String × Int)) :
    ∀ store store1, expireLoop connLoss now ttl es store = .ok store1 →
      ∀ k ts, (k, ts) ∈ es → now - ts > ttl → k ∉ store1 := by
  induction es with
  | nil =>
    intro store store1 _ k ts hmem
    simp at hmem
  | cons p rest ih =>
    rcases p with ⟨name, ts0⟩
    intro store store1 h k ts hmem hstale
    simp only [expireLoop] at h
    by_cases hst : now - ts0 > ttl
    · rw [if_pos hst] at h
      cases hdel : storeDelete connLoss store name with
      | ok store2 =>
        rw [hdel] at h
        rcases List.mem_cons.mp hmem with heq | hmr
        · have hk : k = name := (Prod.mk.injEq _ _ _ _).mp heq |>.1
          have hrm := (storeDelete_ok connLoss store name store2 hdel).2.2
          intro hk1
          have hsub := expireLoop_subset connLoss now ttl rest store2 store1 h hk1
          rw [hrm] at hsub
          have hne := List.of_mem_filter hsub
          rw [hk] at hne
          simp at hne
        · exact ih store2 store1 h k ts hmr hstale
      | error e =>
        rw [hdel] at h
        exact absurd h (by simp)
    · rw [if_neg hst] at h
      rcases List.mem_cons.mp hmem with heq | hmr
      · have : ts = ts0 := (Prod.mk.injEq _ _ _ _).mp heq |>.2
        subst this
        exact absurd hstale hst
      · exact ih store store1 h k ts hmr hstale

theorem expireLoop_noNode_iff (now ttl : Int) (es : List (String × Int)) :
    ∀ store, (es.map Prod.fst).Nodup →
      (expireLoop (fun _ => false) now ttl es store = .error .noNode ↔
        ∃ p ∈ es, now - p.2 > ttl ∧ p.1 ∉ store) := by
  induction es with
  | nil =>
    intro store _
    simp [expireLoop]
  | cons p rest ih =>
    rcases p with ⟨name, ts0⟩
    intro store hnd
    have hnd2 : name ∉ rest.map Prod.fst ∧ (rest.map Prod.fst).Nodup := by
      rw [List.map_cons] at hnd
      exact List.nodup_cons.mp hnd
    have hname := hnd2.1
    have hndr := hnd2.2
    simp only [expireLoop]
    by_cases hst : now - ts0 > ttl
    · rw [if_pos hst]
      by_cases hmem : name ∈ store
      · have hdel : storeDelete (fun _ => false) store name =
            .ok (store.filter (fun k => k != name)) := by
          simp [storeDelete, hmem]
        rw [hdel]
        rw [ih (store.filter (fun k => k != name)) hndr]
        constructor
        · rintro ⟨q, hq, hqs, hqn⟩
          refine ⟨q, List.mem_cons_of_mem _ hq, hqs, ?_⟩
          intro hqstore
          apply hqn
          refine List.mem_filter.mpr ⟨hqstore, ?_⟩
          have : q.1 ≠ name := by
            intro he
            exact hname (he ▸ List.mem_map.mpr ⟨q, hq, rfl⟩)
          simpa using this
        · rintro ⟨q, hq, hqs, hqn⟩
          rcases List.mem_cons.mp hq with heq | hqr
          · exfalso
            apply hqn
            rw [heq]
            exact hmem
          · refine ⟨q, hqr, hqs, ?_⟩
            intro hqf
            exact hqn (List.mem_of_mem_filter hqf)
      · have hdel : storeDelete (fun _ => false) store name = .error .noNode := by
          simp [storeDelete, hmem]
        rw [hdel]
        exact iff_of_true rfl ⟨(name, ts0), by simp, hst, hmem⟩
    · rw [if_neg hst]
      rw [ih store hndr]
      constructor
      · rintro ⟨q, hq, hqs, hqn⟩
        exact ⟨q, List.mem_cons_of_mem _ hq, hqs, hqn⟩
      · rintro ⟨q, hq, hqs, hqn⟩
        rcases List.mem_cons.mp hq with heq | hqr
        · exfalso
          rw [heq] at hqs
          exact hst hqs
        · exact ⟨q, hqr, hqs, hqn⟩

theorem expireLoop_connLoss (now ttl : Int) (es : List (String × Int)) :
    ∀ store, (∃ p ∈ es, now - p.2 > ttl) →
      expireLoop (fun _ => true) now ttl es store = .error .noConn := by
  induction es with
  | nil =>
    rintro store ⟨q, hq, -⟩
    simp at hq
  | cons p rest ih =>
    rcases p with ⟨name, ts0⟩
    rintro store ⟨q, hq, hqs⟩
    simp only [expireLoop]
    by_cases hst : now - ts0 > ttl
    · rw [if_pos hst]
      have : storeDelete (fun _ => true) store name = .error .noConn := by
        simp [storeDelete]
      rw [this]
    · rw [if_neg hst]
      apply ih store
      rcases List.mem_cons.mp hq with heq | hqr
      · exfalso
        rw [heq] at hqs
        exact hst hqs
      · exact ⟨q, hqr, hqs⟩

/-- C4: on a connected cache, if `expire(ttl)` at time `now` completes
without error then every tracked entry whose first-seen timestamp is older
than `ttl` has been deleted from the store, and every tracked key still in
the store satisfies `now - first_seen ≤ ttl`; a `NoNode` on such a delete is
surfaced as `ZkNoNodeError` (and, with no connection loss, occurs exactly
when some stale tracked entry is absent from the store), and a connection
loss aborts the sweep with `ZkNoConnection` (also raised at entry when
disconnected). -/
theorem cacheExpire_spec (conn : Bool) (connLoss : String → Bool)
    (now ttl : Int) (es : List (String × Int)) (store : List String)
    (hnd : (es.map Prod.fst).Nodup) :
    (conn = false → cacheExpire conn connLoss now ttl es store = .error .noConn) ∧
    (∀ store1, cacheExpire true connLoss now ttl es store = .ok store1 →
      ∀ k ts, (k, ts) ∈ es →
        (now - ts > ttl → k ∉ store1) ∧ (k ∈ store1 → now - ts ≤ ttl)) ∧
    ((∀ n, connLoss n = false) →
      (cacheExpire true connLoss now ttl es store = .error .noNode ↔
        ∃ p ∈ es, now - p.2 > ttl ∧ p.1 ∉ store)) ∧
    ((∀ n, connLoss n = true) → (∃ p ∈ es, now - p.2 > ttl) →
      cacheExpire true connLoss now ttl es store = .error .noConn) := by
  have hrun : cacheExpire true connLoss now ttl es store =
      expireLoop connLoss now ttl es store := rfl
  refine ⟨?_, ?_, ?_, ?_⟩
  · intro hc
    subst hc
    rfl
  · intro store1 h k ts hmem
    rw [hrun] at h
    have hgone := expireLoop_stale connLoss now ttl es store store1 h k ts hmem
    refine ⟨hgone, ?_⟩
    intro hk1
    by_contra hfresh
    exact hgone (by omega) hk1
  · intro hcl
    have : connLoss = fun _ => false := funext hcl
    rw [hrun, this]
    exact expireLoop_noNode_iff now ttl es store hnd
  · intro hcl hex
    have : connLoss = fun _ => true := funext hcl
    rw [hrun, this]
    exact expireLoop_connLoss now ttl es store hex

/-- C4 witness: the cache-expiry scenario from the spec — `"old"` stored at
`t = 0`, `"new"` at `t = 5`, `expire(3)` at `t = 6` deletes `"old"` and keeps
`"new"`. -/
theorem cacheExpire_spec_witness :
    ([("old", (0 : Int)), ("new", 5)].map Prod.fst).Nodup ∧
    cacheExpire true (fun _ => false) 6 3 [("old", 0), ("new", 5)]
        ["old", "new"] = .ok ["new"] ∧
    "old" ∉ ["new"] ∧ (6 : Int) - 5 ≤ 3 := by
  have hnd : ([("old", (0 : Int)), ("new", 5)].map Prod.fst).Nodup := by decide
  have h := (cacheExpire_spec true (fun _ => false) 6 3 [("old", 0), ("new", 5)]
    ["old", "new"] hnd).2.1
  have hok : cacheExpire true (fun _ => false) 6 3 [("old", 0), ("new", 5)]
      ["old", "new"] = .ok ["new"] := rfl
  refine ⟨hnd, hok, ?_, ?_⟩
  · exact (h ["new"] hok "old" 0 (by simp) |>.1) (by omega)
  · exact (h ["new"] hok "new" 5 (by simp) |>.2) (by simp)

/-- Outcome of one iteration of the `Zookeeper.retry` loop: the connection
wait expired (`wait_connected` raised `ZkNoConnection`), the operation `f`
raised `ZkNoConnection`, or `f` returned a value. -/
inductive AttemptRes (α : Type) where
  | waitFail
  | fnFail
  | success (a : α)
deriving DecidableEq, Repr

/-- The result of `Zookeeper.retry`: the operation's value, or the
`ZkRetryLimit` exception. -/
inductive RetryResult (α : Type) where
  | ok (a : α)
  | retryLimit
deriving DecidableEq, Repr

/-- The loop of `Zookeeper.retry` (zookeeper.py:433-448).  `att i` is the
outcome of the iteration with `count = i`; `fuel` is the number of loop
iterations still allowed, i.e. `_retries + 1 - count` (the Python guard
`count > _retries` is exactly `fuel = 0`).  Returns the result together with
the number of attempts executed. -/
def retryLoop (att : Nat → AttemptRes α) : Nat → Nat → RetryResult α × Nat
  | _, 0 => (.retryLimit, 0)
  | count, fuel + 1 =>
    match att count with
    | .success a => (.ok a, 1)
    | .waitFail =>
      let r := retryLoop att (count + 1) fuel
      (r.1, r.2 + 1)
    | .fnFail =>
      let r := retryLoop att (count + 1) fuel
      (r.1, r.2 + 1)

/-- `Zookeeper.retry` with a finite `_retries = retries`: start at
`count = 0` with `retries + 1` permitted iterations. -/
def zkRetry (att : Nat → AttemptRes α) (retries : Nat) : RetryResult α × Nat :=
  retryLoop att 0 (retries + 1)

theorem retryLoop_all_fail (att : Nat → AttemptRes α)
    (hfail : ∀ i, ∀ a, att i ≠ .success a) :
    ∀ fuel count, retryLoop att count fuel = (.retryLimit, fuel) := by
  intro fuel
  induction fuel with
  | zero => intro count; rfl
  | succ fuel ih =>
    intro count
    cases hatt : att count with
    | success a => exact absurd hatt (hfail count a)
    | waitFail => simp [retryLoop, hatt, ih (count + 1)]
    | fnFail => simp [retryLoop, hatt, ih (count + 1)]

theorem retryLoop_first_success (att : Nat → AttemptRes α) :
    ∀ (fuel count j : Nat) (a : α), count ≤ j → j < count + fuel →
      att j = .success a →
      (∀ i, count ≤ i → i < j → ∀ b, att i ≠ .success b) →
      retryLoop att count fuel = (.ok a, j - count + 1) := by
  intro fuel
  induction fuel with
  | zero =>
    intro count j a hle hlt
    exact fun _ _ => absurd hlt (by omega)
  | succ fuel ih =>
    intro count j a hle hlt hsucc hbefore
    by_cases hj : j = count
    · subst hj
      simp [retryLoop, hsucc]
    · have hcnt : count < j := by omega
      have hfc : ∀ b, att count ≠ .success b :=
        fun b => hbefore count (le_refl count) hcnt b
      have hrec := ih (count + 1) j a (by omega) (by omega) hsucc
        (fun i h1 h2 b => hbefore i (by omega) h2 b)
      have hn : j - count + 1 = (j - (count + 1) + 1) + 1 := by omega
      cases hatt : att count with
      | success b => exact absurd hatt (hfc b)
      | waitFail =>
        simp [retryLoop, hatt, hrec, hn]
      | fnFail =>
        simp [retryLoop, hatt, hrec, hn]

/-- C6: with finite `retries = r`, if every attempt fails (connection wait
expired or `f` raised `ZkNoConnection`) the wrapper executes exactly `r + 1`
attempts and then raises `ZkRetryLimit`; if the first success is at attempt
`j ≤ r`, the wrapper returns `f`'s result having executed `j + 1` attempts
(so it returns immediately on the successful attempt). -/
theorem zkRetry_spec {α : Type} (att : Nat → AttemptRes α) (retries : Nat) :
    ((∀ i, ∀ a, att i ≠ .success a) →
      zkRetry att retries = (.retryLimit, retries + 1)) ∧
    (∀ j a, j ≤ retries → att j = .success a →
      (∀ i, i < j → ∀ b, att i ≠ .success b) →
      zkRetry att retries = (.ok a, j + 1)) := by
  constructor
  · intro hfail
    exact retryLoop_all_fail att hfail (retries + 1) 0
  · intro j a hj hsucc hbefore
    have := retryLoop_first_success att (retries + 1) 0 j a (Nat.zero_le j)
      (by omega) hsucc (fun i _ h2 b => hbefore i h2 b)
    simpa using this

/-- C6 witness: the spec's retry-exhaustion scenario — `retries = 2` and an
operation that raises `ZkNoConnection` on every call raises `ZkRetryLimit`
after exactly three attempts; and an operation succeeding on its first call
returns immediately after one attempt. -/
theorem zkRetry_spec_witness :
    zkRetry (fun _ => AttemptRes.fnFail (α := Nat)) 2 = (.retryLimit, 3) ∧
    zkRetry (fun _ => AttemptRes.success (7 : Nat)) 2 = (.ok 7, 1) :=
  ⟨(zkRetry_spec (fun _ => AttemptRes.fnFail (α := Nat)) 2).1
      (fun _ _ h => AttemptRes.noConfusion h),
   (zkRetry_spec (fun _ => AttemptRes.success (7 : Nat)) 2).2 0 7
      (Nat.zero_le 2) rfl (fun i h1 => absurd h1 (Nat.not_lt_zero i))⟩

/-- C7: recorded first-seen timestamps are never overwritten.  Draining the
writer FIFO leaves the timestamp of every already-tracked name unchanged;
and in the two-stores-then-process scenario (`store(n, v1)` at `t1`, then
`store(n, v2)` at `t2`, then `process()`), the recorded timestamp of `n`
after `process()` is `t1`, the first one. -/
theorem first_timestamp_wins (m inc : List (String × Int)) (n : String) :
    (n ∈ m.map Prod.fst →
      List.lookup n (drainIncoming m inc) = List.lookup n m) ∧
    (∀ (t1 t2 now : Int) (fetch : String → GetRes)
        (inc1 inc2 : List (String × Int)),
      cacheStore true SetRes.noNodeError CreateRes.ok n t1 [] = .ok inc1 →
      cacheStore true SetRes.ok CreateRes.ok n t2 inc1 = .ok inc2 →
      ∃ m3 data, cacheProcess true [n] fetch now [] inc2 = .ok (m3, data) ∧
        List.lookup n m3 = some t1) := by
  constructor
  · intro hmem
    unfold drainIncoming
    induction inc generalizing m with
    | nil => rfl
    | cons p rest ih =>
      rcases p with ⟨a, b⟩
      have h1 : List.lookup n (setdefault m a b) = List.lookup n m :=
        lookup_setdefault_of_mem m a n b hmem
      have h2 : n ∈ (setdefault m a b).map Prod.fst :=
        (setdefault_keys m a n b).mpr (Or.inl hmem)
      simp only [List.foldl_cons]
      rw [ih (setdefault m a b) h2, h1]
  · intro t1 t2 now fetch inc1 inc2 h1 h2
    have h1b : cacheStore true SetRes.noNodeError CreateRes.ok n t1 [] =
        Except.ok [(n, t1)] := rfl
    have hinc1 : inc1 = [(n, t1)] :=
      ((Except.ok.injEq _ _).mp (h1b.symm.trans h1)).symm
    subst hinc1
    have h2b : cacheStore true SetRes.ok CreateRes.ok n t2 [(n, t1)] =
        Except.ok [(n, t1), (n, t2)] := rfl
    have hinc2 : inc2 = [(n, t1), (n, t2)] :=
      ((Except.ok.injEq _ _).mp (h2b.symm.trans h2)).symm
    subst hinc2
    have hm1 : drainIncoming [] [(n, t1), (n, t2)] = [(n, t1)] := by
      unfold drainIncoming
      simp only [List.foldl_cons, List.foldl_nil]
      have hs1 : setdefault [] n t1 = [(n, t1)] := by
        unfold setdefault
        simp
      rw [hs1]
      exact setdefault_of_mem [(n, t1)] n t2 (by simp)
    have hm2 : ([(n, t1)]).filter (fun p => ([n]).contains p.1) = [(n, t1)] := by
      simp [List.filter]
    have hfresh : ([n]).filter
        (fun x => !((([(n, t1)]).map Prod.fst).contains x)) = [] := by
      simp [List.filter]
    refine ⟨[(n, t1)], [], ?_, by simp [List.lookup]⟩
    unfold cacheProcess
    rw [if_neg (by simp)]
    rw [hm1, hm2, hfresh]
    rfl

/-- C7 witness: concrete two-stores-then-process run — the timestamp map ends
with the first store's timestamp. -/
theorem first_timestamp_wins_witness :
    ("pcb" ∈ ([("pcb", (4 : Int))]).map Prod.fst ∧
      List.lookup "pcb" (drainIncoming [("pcb", 4)] [("pcb", 8)]) = some 4) ∧
    (∃ m3 data,
      cacheProcess true ["pcb"] (fun _ => GetRes.ok []) 9 []
          [("pcb", 1), ("pcb", 2)] = .ok (m3, data) ∧
      List.lookup "pcb" m3 = some 1) := by
  constructor
  · refine ⟨by decide, ?_⟩
    have h := (first_timestamp_wins [("pcb", 4)] [("pcb", 8)] "pcb").1 (by decide)
    rw [h]
    rfl
  · exact (first_timestamp_wins [] [] "pcb").2 1 2 9 (fun _ => GetRes.ok [])
      [("pcb", 1)] [("pcb", 1), ("pcb", 2)] rfl rfl

end ZkSpec
